import Mathlib

/-!
Verification of the sdk-bridge feature orchestration engine.

This file gives a shallow embedding of the Python modules
`dependency_graph.py`, `parallel_coordinator.py`, `hybrid_loop_agent.py`
and `autonomous_agent.py`, and settles the specification claims about
them.  Python dicts are modelled as insertion-ordered association lists
(CPython dicts preserve insertion order); Python sets whose iteration
order is observable only up to membership are determinized to
insertion-ordered lists; exceptions are modelled with Except; external
calls (git subprocesses, the SDK query, validators) are abstracted as
explicit oracle parameters.  Loops whose termination measure is not
structural carry a fuel parameter that is always instantiated large
enough to reproduce the Python behaviour exactly.
-/

/-- Feature record as read from feature_list.json.  Optional JSON keys are
modelled with Option; a missing "passes" key defaults to false exactly as
f.get("passes", False) does.  The informational float fields risk_score and
complexity are never read by any code path a claim mentions and are omitted. -/
structure Feature where
  id : Option String
  description : String
  tags : List String
  priority : Option Int
  passes : Bool
  dependencies : List String
deriving Repr, DecidableEq

/-- Node in the dependency graph (dependency_graph.FeatureNode). -/
structure FeatureNode where
  id : String
  description : String
  tags : List String
  priority : Int
  passes : Bool
  dependencies : List String
  dependents : List String
deriving Repr, DecidableEq

/-- DependencyGraph: nodes is the insertion-ordered dict self.nodes,
edges is the list self.edges of (from_id, to_id) pairs. -/
structure DependencyGraph where
  nodes : List (String × FeatureNode)
  edges : List (String × String)
deriving Repr, DecidableEq

/-- Dict lookup self.nodes.get(id). -/
def lookupNode (g : DependencyGraph) (id : String) : Option FeatureNode :=
  (g.nodes.find? (fun p => p.1 = id)).map (·.2)

/-- Membership test id in self.nodes. -/
def hasKey (g : DependencyGraph) (id : String) : Bool :=
  g.nodes.any (fun p => p.1 = id)

/-- Dict assignment self.nodes[id] = n: replaces in place if the key exists
(keeping its position, as CPython dicts do), else appends. -/
def setNode (g : DependencyGraph) (id : String) (n : FeatureNode) : DependencyGraph :=
  if hasKey g id then
    { g with nodes := g.nodes.map (fun p => if p.1 = id then (id, n) else p) }
  else
    { g with nodes := g.nodes ++ [(id, n)] }

/-- In-place mutation of the node stored under an existing key. -/
def modifyNode (g : DependencyGraph) (id : String) (f : FeatureNode → FeatureNode) :
    DependencyGraph :=
  { g with nodes := g.nodes.map (fun p => if p.1 = id then (p.1, f p.2) else p) }

/-- DependencyGraph.add_edge.  Mirrors the source exactly: the edge is
deduplicated; the dependents list of from_id is updated only when from_id is
already a node at this moment; the dependencies list of to_id is updated only
when to_id is already a node and does not yet list from_id. -/
def add_edge (g : DependencyGraph) (from_id to_id : String) : DependencyGraph :=
  if (from_id, to_id) ∈ g.edges then g
  else
    let g1 : DependencyGraph := { g with edges := g.edges ++ [(from_id, to_id)] }
    let g2 : DependencyGraph :=
      if hasKey g1 from_id then
        modifyNode g1 from_id (fun n => { n with dependents := n.dependents ++ [to_id] })
      else g1
    if hasKey g2 to_id then
      modifyNode g2 to_id (fun n =>
        if from_id ∈ n.dependencies then n
        else { n with dependencies := n.dependencies ++ [from_id] })
    else g2

/-- DependencyGraph.add_feature.  The id defaults to "feat-<len(nodes)+1>"
when missing, the FeatureNode dataclass default priority is 50, and every
explicit dependency is registered through add_edge. -/
def add_feature (g : DependencyGraph) (f : Feature) : DependencyGraph :=
  let feature_id := f.id.getD ("feat-" ++ toString (g.nodes.length + 1))
  let node : FeatureNode :=
    { id := feature_id
      description := f.description
      tags := f.tags
      priority := f.priority.getD 50
      passes := f.passes
      dependencies := f.dependencies
      dependents := [] }
  let g1 := setNode g feature_id node
  f.dependencies.foldl (fun acc dep => add_edge acc dep feature_id) g1

/-- Empty graph (DependencyGraph.__init__). -/
def initialGraph : DependencyGraph := { nodes := [], edges := [] }

/-- build_graph_from_feature_list_data: add every feature in order. -/
def build_graph_from_feature_list_data (features : List Feature) : DependencyGraph :=
  features.foldl add_feature initialGraph

/-- Keys of self.nodes in insertion order. -/
def nodeKeys (g : DependencyGraph) : List String := g.nodes.map (·.1)

/-- Accessor for self.nodes[id].dependents.  For every id that is a key the
lookup succeeds; the [] fallback is never reached on the graphs the claims
evaluate (dependents entries are only ever ids of existing nodes). -/
def dependentsOf (g : DependencyGraph) (id : String) : List String :=
  ((lookupNode g id).map (·.dependents)).getD []

/-- Accessor for self.nodes[id].dependencies with the same convention. -/
def dependenciesOf (g : DependencyGraph) (id : String) : List String :=
  ((lookupNode g id).map (·.dependencies)).getD []

/-- Initial in-degree: the dict maps each node id to the number of edges
pointing at it (edges whose target is not a node are skipped by the source,
and the dict is only ever read at node ids, so the count is equivalent). -/
def initInDegree (g : DependencyGraph) (id : String) : Int :=
  ((g.edges.filter (fun e => e.2 = id)).length : Int)

/-- One batched round of in-degree decrements: for every dependent id of a
removed node, decrement if the id is a key of the in-degree dict. -/
def decrementAll (deg : String → Int) (keys : List String) (ds : List String) :
    String → Int :=
  fun id => if id ∈ keys then deg id - (ds.count id : Int) else deg id

/-- The while-loop of DependencyGraph.topological_sort.  remaining is the
set of unprocessed node ids, determinized to insertion order; deg is the
in_degree dict.  Each iteration takes every remaining id of in-degree zero
as the next level; if there are none (cycle or stuck nodes) the whole
remainder is emitted as one final level.  The fuel parameter only bounds the
number of iterations; it is instantiated with the number of nodes, which is
always sufficient because every iteration removes at least one id. -/
def peelFuel (dependents : String → List String) (keys : List String) :
    Nat → List String → (String → Int) → List (List String)
  | 0, _, _ => []
  | fuel + 1, remaining, deg =>
    if remaining.isEmpty then []
    else
      let zero := remaining.filter (fun n => decide (deg n = 0))
      let cur := if zero.isEmpty then remaining else zero
      let remaining' := remaining.filter (fun n => decide (n ∉ cur))
      let deg' := decrementAll deg keys (cur.flatMap dependents)
      cur :: peelFuel dependents keys fuel remaining' deg'

/-- DependencyGraph.topological_sort. -/
def topological_sort (g : DependencyGraph) : List (List String) :=
  peelFuel (dependentsOf g) (nodeKeys g) (nodeKeys g).length (nodeKeys g) (initInDegree g)

/-- Level in the parallel execution plan. -/
structure ExecutionLevel where
  level : Nat
  features : List String
  max_parallelism : Nat
  estimated_duration_minutes : Nat
deriving Repr, DecidableEq

/-- Complete parallel execution plan. -/
structure ExecutionPlan where
  levels : List ExecutionLevel
  total_features : Nat
  max_parallel_workers : Nat
  estimated_total_minutes : Nat
  critical_path : List String
deriving Repr, DecidableEq

/-- The recursive helper get_chain_length inside _calculate_critical_path:
walk dependents, returning the longest chain and its path.  Each recursive
call receives visited.copy() with the current id added, exactly as the
source does.  The fuel bounds the recursion depth; it is instantiated with
len(nodes) + 1 which always suffices since every frame adds a fresh node id
to visited. -/
def get_chain_length (g : DependencyGraph) :
    Nat → String → List String → Nat × List String
  | 0, _, _ => (0, [])
  | fuel + 1, node_id, visited =>
    if node_id ∈ visited then (0, [])
    else
      let visited' := node_id :: visited
      let deps := dependentsOf g node_id
      if deps.isEmpty then (1, [node_id])
      else
        let best := deps.foldl
          (fun (acc : Nat × List String) dep =>
            let r := get_chain_length g fuel dep visited'
            if r.1 > acc.1 then r else acc)
          (0, [])
        (best.1 + 1, node_id :: best.2)

/-- DependencyGraph._calculate_critical_path: longest dependents-chain from
any root (no-dependency) node, roots scanned in node insertion order,
strictly-longer chains winning. -/
def calculate_critical_path (g : DependencyGraph) : List String :=
  let roots := (g.nodes.filter (fun p => p.2.dependencies.isEmpty)).map (·.1)
  let best := roots.foldl
    (fun (acc : Nat × List String) root =>
      let r := get_chain_length g (g.nodes.length + 1) root []
      if r.1 > acc.1 then r else acc)
    (0, [])
  best.2

/-- DependencyGraph.create_execution_plan.  Durations use integer
truncation of (len * 15) / parallelism, which the Nat division reproduces
(the float quotient is truncated toward zero by int()). -/
def create_execution_plan (g : DependencyGraph) (max_parallel_workers : Nat) :
    ExecutionPlan :=
  let levels_raw := topological_sort g
  let execution_levels := levels_raw.enum.map
    (fun (p : Nat × List String) =>
      let parallelism := min p.2.length max_parallel_workers
      let duration := (p.2.length * 15) / parallelism
      ({ level := p.1
         features := p.2
         max_parallelism := parallelism
         estimated_duration_minutes := duration } : ExecutionLevel))
  { levels := execution_levels
    total_features := g.nodes.length
    max_parallel_workers := max_parallel_workers
    estimated_total_minutes := (execution_levels.map (·.estimated_duration_minutes)).sum
    critical_path := calculate_critical_path g }

/-- Result of a validation check (dependency_graph.ValidationResult). -/
structure ValidationResult where
  is_valid : Bool
  errors : List String
  warnings : List String
deriving Repr, DecidableEq

/-- Mutable state threaded through the DFS of _detect_cycles: the visited
set, the recursion stack and the cycles found so far (sets determinized to
lists; only membership in visited and rec_stack is ever observed). -/
structure DetectState where
  visited : List String
  rec_stack : List String
  cycles : List (List String)
deriving Repr, DecidableEq

/-- Fuel for the DFS of _detect_cycles: every nesting level visits a fresh
id drawn from the node keys or from some dependencies list, so this bound
is never reached. -/
def detectFuel (g : DependencyGraph) : Nat :=
  g.nodes.length + (g.nodes.map (fun p => p.2.dependencies.length)).sum + 1

/-- The for-loop over node.dependencies inside the dfs of _detect_cycles,
parametrized by the recursive dfs call so that the recursion below stays
structural in the fuel.  A back edge to an id on the recursion stack
extracts the cycle with path.index(dep), which raises ValueError (modelled
as Except.error) when the id is not on the current path. -/
def depsLoopP (dfs : String → List String → DetectState → Except String DetectState) :
    List String → List String → DetectState → Except String DetectState
  | [], _, st => .ok st
  | dep :: rest, path, st =>
    if dep ∈ st.visited then
      if dep ∈ st.rec_stack then
        match path.indexOf? dep with
        | none => .error "ValueError: dep is not in list"
        | some i =>
          depsLoopP dfs rest path
            { st with cycles := st.cycles ++ [path.drop i ++ [dep]] }
      else depsLoopP dfs rest path st
    else
      match dfs dep path st with
      | .error e => .error e
      | .ok st1 => depsLoopP dfs rest path st1

/-- The inner dfs of _detect_cycles.  The id is marked visited and pushed on
the recursion stack, then each dependency is explored; ids that are not
nodes return early WITHOUT being removed from the recursion stack, exactly
as the early return in the source skips rec_stack.remove.  The fuel bounds
the dfs nesting depth; every nested dfs call is on an unvisited id, so the
depth never exceeds the number of distinct ids and detectFuel is always
sufficient. -/
def dfsDetect (g : DependencyGraph) :
    Nat → String → List String → DetectState → Except String DetectState
  | 0, _, _, _ => .error "fuel exhausted"
  | fuel + 1, node_id, path, st =>
    let st1 : DetectState :=
      { st with visited := st.visited ++ [node_id], rec_stack := st.rec_stack ++ [node_id] }
    let path1 := path ++ [node_id]
    match lookupNode g node_id with
    | none => .ok st1
    | some node =>
      match depsLoopP (dfsDetect g fuel) node.dependencies path1 st1 with
      | .error e => .error e
      | .ok st2 => .ok { st2 with rec_stack := st2.rec_stack.erase node_id }

/-- The top-level loop of _detect_cycles over the node keys. -/
def detectCyclesLoop (g : DependencyGraph) :
    List String → DetectState → Except String DetectState
  | [], st => .ok st
  | id :: rest, st =>
    if id ∈ st.visited then detectCyclesLoop g rest st
    else
      match dfsDetect g (detectFuel g) id [] st with
      | .error e => .error e
      | .ok st1 => detectCyclesLoop g rest st1

/-- dependency_graph._detect_cycles.  A raised ValueError propagates as
Except.error. -/
def detect_cycles (g : DependencyGraph) : Except String (List (List String)) :=
  match detectCyclesLoop g (nodeKeys g) { visited := [], rec_stack := [], cycles := [] } with
  | .error e => .error e
  | .ok st => .ok st.cycles

/-- dependency_graph._calculate_depth, with the same fuel convention as
get_chain_length (each frame adds a fresh id to visited). -/
def calculate_depth (g : DependencyGraph) : Nat → String → List String → Nat
  | 0, _, _ => 0
  | fuel + 1, node_id, visited =>
    if node_id ∈ visited then 0
    else
      let visited' := node_id :: visited
      match lookupNode g node_id with
      | none => 0
      | some node =>
        if node.dependencies.isEmpty then 0
        else
          (node.dependencies.map (fun dep => calculate_depth g fuel dep visited')).foldl
            max 0 + 1

/-- dependency_graph.validate_dependencies.  Error strings are built exactly
in source order: per node the self-dependency and dangling checks, then one
error per detected cycle; the topological-sort count check and the depth
check only ever add warnings.  An exception escaping _detect_cycles escapes
validate_dependencies as well (the call is not guarded). -/
def validate_dependencies (g : DependencyGraph) : Except String ValidationResult :=
  let nodeErrors := g.nodes.flatMap (fun p =>
    p.2.dependencies.flatMap (fun dep =>
      (if dep = p.1 then ["Feature " ++ p.1 ++ " has self-dependency"] else []) ++
      (if hasKey g dep then [] else
        ["Feature " ++ p.1 ++ " depends on non-existent feature: " ++ dep])))
  match detect_cycles g with
  | .error e => .error e
  | .ok cycles =>
    let cycleErrors := cycles.map
      (fun c => "Circular dependency detected: " ++ String.intercalate " → " c)
    let errors := nodeErrors ++ cycleErrors
    let sortWarnings :=
      if cycles.isEmpty then
        let total_sorted := ((topological_sort g).map (·.length)).sum
        if total_sorted ≠ g.nodes.length then
          ["Topological sort produced " ++ toString total_sorted ++ " features, expected "
            ++ toString g.nodes.length]
        else []
      else []
    let max_depth := (g.nodes.map
      (fun p => calculate_depth g (g.nodes.length + 1) p.1 [])).foldl max 0
    let depthWarnings :=
      if max_depth > 5 then
        ["Deep dependency chain detected: " ++ toString max_depth
          ++ " levels (consider flattening)"]
      else []
    .ok { is_valid := errors.isEmpty
          errors := errors
          warnings := sortWarnings ++ depthWarnings }

/-- A nonempty id list is a cycle of the graph when consecutive ids are
joined by edges and the last id has an edge back to the first. -/
def chainB (g : DependencyGraph) : List String → Bool
  | [] => true
  | [_] => true
  | a :: b :: rest => decide ((a, b) ∈ g.edges) && chainB g (b :: rest)

/-- Decidable cycle witness check. -/
def isCycleList (g : DependencyGraph) (l : List String) : Bool :=
  match l with
  | [] => false
  | x :: xs => chainB g (x :: xs) && decide ((xs.getLastD x, x) ∈ g.edges)

/-- The graph has a directed cycle along its edge list. -/
def HasCycle (g : DependencyGraph) : Prop :=
  ∃ l, isCycleList g l = true

/-- Result of a merge operation (parallel_coordinator.MergeResult). -/
structure MergeResult where
  success : Bool
  conflicts : List String
  test_failures : List String
  reason : String
  requires_approval : Bool
deriving Repr, DecidableEq

/-- Abstraction of one git merge --no-ff attempt for a given branch: either
it commits cleanly or it reports conflicting paths (nonzero return code). -/
inductive MergeOutcome where
  | clean : MergeOutcome
  | conflict : List String → MergeOutcome
deriving Repr, DecidableEq

/-- The target branch state as its commit history, newest first; HEAD~n
follows first parents, so a hard reset to HEAD~n drops the first n entries. -/
def reset_hard (hist : List String) (n : Nat) : List String := hist.drop n

/-- GitManager.merge_branch: a clean merge creates one merge commit on the
target; a conflicting merge is aborted (git merge --abort), leaving the
history unchanged, and reports the conflicting paths. -/
def merge_branch (behavior : String → MergeOutcome) (hist : List String)
    (branch_name : String) : List String × MergeResult :=
  match behavior branch_name with
  | .clean =>
    (("merge:" ++ branch_name) :: hist,
     { success := true, conflicts := [], test_failures := [],
       reason := "Clean merge", requires_approval := false })
  | .conflict paths =>
    (hist,
     { success := false, conflicts := paths, test_failures := [],
       reason := "Merge conflicts detected", requires_approval := true })

/-- The sequential merge loop inside merge_level_results: every successful
feature branch is merged in turn — the loop does NOT stop at the first
conflict — accumulating the conflicting paths of failed merges. -/
def mergeLoop (behavior : String → MergeOutcome) :
    List String → List String → List String → List String × List String
  | [], hist, conflicts => (hist, conflicts)
  | fid :: rest, hist, conflicts =>
    let branch := "sdk-bridge/parallel/" ++ fid
    let r := merge_branch behavior hist branch
    let conflicts' := if r.2.success then conflicts else conflicts ++ r.2.conflicts
    mergeLoop behavior rest r.1 conflicts'

/-- _run_integration_tests is simulated to always pass in the source. -/
def run_integration_tests : Bool := true

/-- ParallelCoordinator.merge_level_results.  results is the feature_id →
success dict in insertion order; only successful features are merged.  When
any conflicts were recorded the rollback executes
git reset --hard HEAD~len(successful_features) — counting ALL successful
features, not the merges that actually created commits. -/
def merge_level_results (behavior : String → MergeOutcome)
    (results : List (String × Bool)) (hist : List String) :
    List String × MergeResult :=
  let successful_features := (results.filter (·.2)).map (·.1)
  if successful_features.isEmpty then
    (hist, { success := false, conflicts := [], test_failures := [],
             reason := "No successful features to merge", requires_approval := false })
  else
    let looped := mergeLoop behavior successful_features hist []
    if !looped.2.isEmpty then
      (reset_hard looped.1 successful_features.length,
       { success := false, conflicts := looped.2, test_failures := [],
         reason := "Merge conflicts detected, rolled back", requires_approval := true })
    else if !run_integration_tests then
      (reset_hard looped.1 successful_features.length,
       { success := false, conflicts := [], test_failures := ["Integration tests failed (simulated)"],
         reason := "Integration tests failed, rolled back", requires_approval := true })
    else
      (looped.1,
       { success := true, conflicts := [], test_failures := [],
         reason := "All merges clean, tests passing", requires_approval := false })

/-- Result of feature validation (hybrid_loop_agent.ValidationResult). -/
structure FeatureValidationResult where
  success : Bool
  errors : List String
  can_self_heal : Bool
deriving Repr, DecidableEq

/-- Observable events of HybridLoopAgent.execute_feature, in program order:
the executor invocation of a given (session, attempt), the checkpoint write
recording that (session, attempt), and the checkpoint removal on success. -/
inductive AgentEvent where
  | invokeExecutor : Nat → Nat → AgentEvent
  | writeCheckpoint : Nat → Nat → AgentEvent
  | clearCheckpoint : AgentEvent
deriving Repr, DecidableEq

/-- The inner self-heal loop of HybridLoopAgent.execute_feature for one
session: each attempt invokes the executor, validates (the validator oracle
gives the ValidationResult of (session, attempt)), and THEN calls
create_checkpoint with the current counters.  On success the checkpoint is
cleared and the feature returns; on a self-healable failure with attempts
remaining the loop continues; otherwise it breaks to the outer loop.
The fuel is the number of attempts remaining (max_inner_loops - attempt);
fuel = 0 after the last attempt corresponds to attempt = max_inner_loops-1
failing the `attempt < max_inner_loops - 1` bound check. -/
def attemptLoop (validator : Nat → Nat → FeatureValidationResult) (s : Nat) :
    Nat → Nat → List AgentEvent × Bool
  | 0, _ => ([], false)
  | fuel + 1, a =>
    let v := validator s a
    let evs := [AgentEvent.invokeExecutor s a, AgentEvent.writeCheckpoint s a]
    if v.success then (evs ++ [AgentEvent.clearCheckpoint], true)
    else if v.can_self_heal && fuel ≠ 0 then
      let rest := attemptLoop validator s fuel (a + 1)
      (evs ++ rest.1, rest.2)
    else (evs, false)

/-- The outer session loop of HybridLoopAgent.execute_feature. -/
def sessionLoop (validator : Nat → Nat → FeatureValidationResult) (maxInner : Nat) :
    Nat → Nat → List AgentEvent × Bool
  | 0, _ => ([], false)
  | fuel + 1, s =>
    let inner := attemptLoop validator s maxInner 0
    if inner.2 then (inner.1, true)
    else
      let rest := sessionLoop validator maxInner fuel (s + 1)
      (inner.1 ++ rest.1, rest.2)

/-- HybridLoopAgent.execute_feature, as the trace of executor invocations
and checkpoint writes it produces together with its success flag. -/
def execute_feature_trace (validator : Nat → Nat → FeatureValidationResult)
    (maxOuter maxInner : Nat) : List AgentEvent × Bool :=
  sessionLoop validator maxInner maxOuter 0

/-- Outcome of one executor session: a returned success flag, or a raised
exception (transport fault, import failure, missing credentials). -/
inductive SessionOutcome where
  | ok : Bool → SessionOutcome
  | raised : String → SessionOutcome
deriving Repr, DecidableEq

/-- AutonomousAgent._execute_session_async: when neither the OAuth token nor
the API key is present in the environment it raises
RuntimeError("Missing API authentication") before touching the SDK;
otherwise the outcome is whatever the SDK interaction produces (oracle). -/
def execute_session_checked (oauth_token api_key : Option String)
    (sdk : SessionOutcome) : SessionOutcome :=
  if oauth_token.isNone && api_key.isNone then .raised "Missing API authentication"
  else sdk

/-- AutonomousAgent.MAX_RETRIES. -/
def MAX_RETRIES : Nat := 3

/-- The for-loop of AutonomousAgent.execute_session_with_retry.  calls
counts executor invocations performed so far (equal to the attempt index);
a returned flag — success OR failure — ends the loop immediately, and only
a raised fault is retried, until the final attempt (fuel = 0 corresponds to
attempt = MAX_RETRIES - 1) returns False.  Returns the result together with
the total number of executor invocations. -/
def retryLoop (session : Nat → SessionOutcome) : Nat → Nat → Bool × Nat
  | 0, calls => (false, calls)
  | fuel + 1, calls =>
    match session calls with
    | .ok b => (b, calls + 1)
    | .raised _ =>
      if fuel = 0 then (false, calls + 1)
      else retryLoop session fuel (calls + 1)

/-- AutonomousAgent.execute_session_with_retry. -/
def execute_session_with_retry (session : Nat → SessionOutcome) : Bool × Nat :=
  retryLoop session MAX_RETRIES 0

/-- The pending filter shared by both get_next_feature implementations. -/
def pendingOf (features : List Feature) : List Feature :=
  features.filter (fun f => !f.passes)

/-- Sort key used by HybridLoopAgent.get_next_feature: f.get("priority", 0). -/
def prioKey (f : Feature) : Int := f.priority.getD 0

/-- Stable insertion: x is placed before the first element y with le x y,
i.e. after every earlier element that compares strictly before x. -/
def insertSorted (le : α → α → Bool) (x : α) : List α → List α
  | [] => [x]
  | y :: ys => if le x y then x :: y :: ys else y :: insertSorted le x ys

/-- Stable sort by a total boolean preorder.  Python list.sort is a stable
sort; for any total preorder the stable sort of a list is unique, so this
structural insertion sort computes exactly the list Python produces. -/
def sortBy (le : α → α → Bool) (l : List α) : List α :=
  l.foldr (insertSorted le) []

/-- HybridLoopAgent.get_next_feature.  Python pending.sort(key, reverse=True)
is the stable DESCENDING sort by priority; with the comparator "b's key ≤
a's key" sortBy computes it. -/
def hybrid_get_next_feature (features : List Feature) : Option Feature :=
  let pending := pendingOf features
  if pending.isEmpty then none
  else
    let pending' :=
      if pending.any (fun f => f.priority.isSome) then
        sortBy (fun a b => decide (prioKey b ≤ prioKey a)) pending
      else pending
    pending'.head?

/-- The ascending-lex comparison on the sort key (-priority, original index)
used by AutonomousAgent.get_next_feature. -/
def autoLE (a b : Nat × Feature) : Bool :=
  decide (prioKey b.2 < prioKey a.2) ||
    (decide (prioKey a.2 = prioKey b.2) && decide (a.1 ≤ b.1))

/-- The pending_with_index pipeline of AutonomousAgent.get_next_feature:
enumerate, keep pending entries, stable-sort ascending by (-priority, index),
take the first entry. -/
def autonomous_get_next_index (features : List Feature) : Option (Nat × Feature) :=
  let pending_with_index := features.enum.filter (fun p => !p.2.passes)
  (sortBy autoLE pending_with_index).head?

/-- AutonomousAgent.get_next_feature. -/
def autonomous_get_next_feature (features : List Feature) : Option Feature :=
  let pending := pendingOf features
  if pending.isEmpty then none
  else (autonomous_get_next_index features).map (·.2)

/-- The mutation feature["passes"] = True applied to the element at a given
position of the loaded feature list (Python mutates the selected dict in
place; the selected dict is the list element at that index). -/
def markPassedAt (features : List Feature) (i : Nat) : List Feature :=
  features.enum.map (fun p => if p.1 = i then { p.2 with passes := true } else p.2)

/-- Terminal record of AutonomousAgent.run: the completion-signal reason and
the current_session counter when it was written. -/
structure RunOutcome where
  reason : String
  session_count : Nat
deriving Repr, DecidableEq

/-- The main loop of AutonomousAgent.run from session index i with fuel =
max_iterations - i remaining iterations.  Each iteration: pick the next
pending feature (none left → signal "success"); run the session (the outcome
oracle gives the result of execute_session_with_retry at that session
index); on success mark the feature passed and reset consecutive_failures
to 0; on failure increment it and, at three, signal "stall_detected" and
return immediately.  Falling off the loop signals "max_iterations_reached".
Checkpoint saves, git commits, webhooks and the progress log do not affect
the completion signal and are not modelled. -/
def runLoop (outcome : Nat → Bool) : Nat → Nat → List Feature → Nat → RunOutcome
  | 0, i, _, _ => { reason := "max_iterations_reached", session_count := i }
  | fuel + 1, i, features, consec =>
    match autonomous_get_next_index features with
    | none => { reason := "success", session_count := i + 1 }
    | some p =>
      if outcome i then
        runLoop outcome fuel (i + 1) (markPassedAt features p.1) 0
      else
        if consec + 1 ≥ 3 then { reason := "stall_detected", session_count := i + 1 }
        else runLoop outcome fuel (i + 1) features (consec + 1)

/-- AutonomousAgent.run, starting from a (possibly checkpoint-restored)
session index and consecutive-failure count. -/
def runAgent (outcome : Nat → Bool) (maxIter start : Nat) (features : List Feature)
    (consec : Nat) : RunOutcome :=
  runLoop outcome (maxIter - start) start features consec

/-- Erase the passes flag of a feature — the only field that marking a
feature done changes. -/
def featStrip (f : Feature) : Feature := { f with passes := false }

/-- Erase the passes flag of a stored graph node. -/
def nodeStrip (p : String × FeatureNode) : String × FeatureNode :=
  (p.1, { p.2 with passes := false })

/-- The graph with all passes flags erased; the planner reads only
components that survive this erasure. -/
def stripG (g : DependencyGraph) : DependencyGraph :=
  { nodes := g.nodes.map nodeStrip, edges := g.edges }

/-- Shorthand used by the concrete claim instances below. -/
def mkFeat (id : String) (deps : List String) : Feature :=
  { id := some id, description := "d", tags := [], priority := none,
    passes := false, dependencies := deps }

/-- Like mkFeat with explicit priority and passes flag. -/
def mkFeatP (id : String) (prio : Option Int) (pass : Bool) : Feature :=
  { id := some id, description := "d", tags := [], priority := prio,
    passes := pass, dependencies := [] }

/-- The concrete scenario of the spec: f1 with no dependencies, f2 and f3
each depending only on f1. -/
def c7Features : List Feature := [mkFeat "f1" [], mkFeat "f2" ["f1"], mkFeat "f3" ["f1"]]

/-- Acyclic chain declared dependent-first: C depends on B, B depends on A,
and each prerequisite appears in the list after its dependent. -/
def c2Features : List Feature := [mkFeat "C" ["B"], mkFeat "B" ["A"], mkFeat "A" []]

/-- Rank function witnessing that c2Features builds an acyclic graph. -/
def c2Rank (id : String) : Nat :=
  if id = "A" then 0 else if id = "B" then 1 else 2

/-- Two features that share one dangling dependency id. -/
def c5Features : List Feature := [mkFeat "X" ["missing"], mkFeat "Y" ["missing"]]

/-- A two-feature dependency cycle. -/
def c6Features : List Feature := [mkFeat "a" ["b"], mkFeat "b" ["a"]]

/-- Merge behaviour for the atomicity scenario: feature A's branch merges
cleanly, feature B's branch conflicts on one path. -/
def c1Behavior : String → MergeOutcome := fun branch =>
  if branch = "sdk-bridge/parallel/B" then .conflict ["src/file.txt"] else .clean

/-- The pre-level history of the target branch in the atomicity scenario. -/
def c1PreLevel : List String := ["c1", "c0"]

/-- Validator oracle whose very first validation succeeds. -/
def alwaysPassValidator : Nat → Nat → FeatureValidationResult :=
  fun _ _ => { success := true, errors := [], can_self_heal := false }

/-! ## Lemmas and claim theorems -/

/-- Along an edge chain, a rank that strictly increases across every edge
weakly increases from the head to the last element. -/
theorem chainB_rank_le (g : DependencyGraph) (r : String → Nat)
    (hr : ∀ e ∈ g.edges, r e.1 < r e.2) :
    ∀ (xs : List String) (a : String), chainB g (a :: xs) = true →
      r a ≤ r (xs.getLastD a)
  | [], _, _ => le_refl _
  | b :: xs, a, h => by
    simp only [chainB, Bool.and_eq_true, decide_eq_true_eq] at h
    have hab : r a < r b := hr (a, b) h.1
    have htail : r b ≤ r (xs.getLastD b) := chainB_rank_le g r hr xs b h.2
    rw [List.getLastD_cons a b xs]
    omega

/-- A graph whose edges all strictly increase some rank has no cycle. -/
theorem no_cycle_of_rank (g : DependencyGraph) (r : String → Nat)
    (hr : ∀ e ∈ g.edges, r e.1 < r e.2) : ¬ HasCycle g := by
  rintro ⟨l, hl⟩
  match l with
  | [] => simp [isCycleList] at hl
  | x :: xs =>
    simp only [isCycleList, Bool.and_eq_true, decide_eq_true_eq] at hl
    have h1 := chainB_rank_le g r hr xs x hl.1
    have h2 := hr (xs.getLastD x, x) hl.2
    simp only at h1 h2
    omega

/-- C7: for features f1 (no dependencies), f2 and f3 (each depending only on
f1), planning yields exactly the two levels [f1] and [f2, f3], and the
computed critical path has length 2. -/
theorem concrete_plan_levels_and_critical_path :
    ((create_execution_plan (build_graph_from_feature_list_data c7Features) 3).levels.map
        (·.features) = [["f1"], ["f2", "f3"]]) ∧
    (create_execution_plan (build_graph_from_feature_list_data c7Features) 3).critical_path.length
      = 2 := by
  exact ⟨rfl, rfl⟩

/-- C2 (failing evaluation): the feature list [C dep B, B dep A, A] builds an
acyclic graph (a rank strictly increases along every edge), yet
topological_sort emits C in the same level as its recorded dependency B —
because add_edge never records C in B's dependents list when B is added
after C, so C's in-degree is never decremented and C is dumped into the
stuck-node fallback level together with B.  The concatenation of the levels
is therefore not a topological order on an acyclic input. -/
theorem topological_sort_violates_order_on_acyclic_input :
    topological_sort (build_graph_from_feature_list_data c2Features) = [["A"], ["C", "B"]] ∧
    "B" ∈ dependenciesOf (build_graph_from_feature_list_data c2Features) "C" ∧
    ¬ HasCycle (build_graph_from_feature_list_data c2Features) := by
  refine ⟨rfl, by decide, no_cycle_of_rank _ c2Rank ?_⟩
  decide

/-- C1 (failing evaluation): level [A, B], both workers succeed, A's branch
merges cleanly (one merge commit) and B's branch conflicts (aborted, no
commit).  The rollback resets HEAD~2 — counting both successful features —
although only one merge commit exists, so the target ends one commit BEFORE
the pre-level state ["c1", "c0"]: the post-rollback state is ["c0"], not the
pre-level state. -/
theorem merge_rollback_overshoots_pre_level_state :
    (merge_level_results c1Behavior [("A", true), ("B", true)] c1PreLevel).1 = ["c0"] ∧
    (merge_level_results c1Behavior [("A", true), ("B", true)] c1PreLevel).1 ≠ c1PreLevel ∧
    (merge_level_results c1Behavior [("A", true), ("B", true)] c1PreLevel).2.success = false := by
  exact ⟨rfl, by decide, rfl⟩

/-- C3 (failing evaluation): in execute_feature the very first event of the
run is the executor invocation of session 0, attempt 0; the checkpoint
recording (0, 0) is written only afterwards (after validation).  No
checkpoint precedes any executor invocation — act-then-write, not
write-then-act. -/
theorem checkpoint_written_only_after_executor_invocation :
    execute_feature_trace alwaysPassValidator 20 5 =
      ([AgentEvent.invokeExecutor 0 0, AgentEvent.writeCheckpoint 0 0,
        AgentEvent.clearCheckpoint], true) ∧
    (execute_feature_trace alwaysPassValidator 20 5).1.head? =
      some (AgentEvent.invokeExecutor 0 0) := by
  exact ⟨rfl, rfl⟩

/-- C5 (failing evaluation): on a graph where two features X and Y share the
dangling dependency id "missing", validate_dependencies raises an uncaught
ValueError instead of returning a ValidationResult: the dfs of
_detect_cycles returns early for the non-node id without removing it from
the recursion stack, so Y's dfs later finds it on the stack and calls
path.index on a path that does not contain it. -/
theorem validate_dependencies_raises_on_shared_dangling_dependency :
    validate_dependencies (build_graph_from_feature_list_data c5Features) =
      Except.error "ValueError: dep is not in list" := by
  rfl

/-- C8 (counterexample): with neither credential present the executor raises,
and execute_session_with_retry retries the raised fault like any other —
the session is invoked 3 times (the full retry bound), not once. -/
theorem missing_credentials_is_retried :
    execute_session_with_retry (fun _ => execute_session_checked none none (.ok true)) =
      (false, 3) ∧ (3 : Nat) ≠ 1 := by
  exact ⟨rfl, by decide⟩

/-- C8 (amended): when the executor invocation finds no credentials it
raises a fault that the retry wrapper treats exactly like any other raised
fault: whatever the SDK would have produced, the session is retried up to
MAX_RETRIES = 3 invocations and the feature then fails. -/
theorem missing_credentials_retried_to_bound (sdk : Nat → SessionOutcome) :
    execute_session_with_retry (fun n => execute_session_checked none none (sdk n)) =
      (false, 3) := by
  rfl

/-- Filtering out a present element strictly shrinks the list. -/
theorem length_filter_lt_of_mem {p : String → Bool} {l : List String} {x : String}
    (hx : x ∈ l) (hp : p x = false) : (l.filter p).length < l.length := by
  induction l with
  | nil => cases hx
  | cons a t ih =>
    rcases List.mem_cons.mp hx with h | h
    · subst h
      have hle := List.length_filter_le p t
      simp only [List.filter_cons, hp, Bool.false_eq_true, if_false, List.length_cons]
      omega
    · by_cases ha : p a
      · simp only [List.filter_cons, ha, if_true, List.length_cons]
        exact Nat.succ_lt_succ (ih h)
      · have ha' : p a = false := by simpa using ha
        have hle := ih h
        simp only [List.filter_cons, ha', Bool.false_eq_true, if_false, List.length_cons]
        omega

/-- Each round of the peel loop emits exactly the ids it removes, so the
concatenation of all levels counts every id exactly as often as the initial
remaining list does. -/
theorem peelFuel_count (dependents : String → List String) (keys : List String) :
    ∀ (fuel : Nat) (remaining : List String) (deg : String → Int),
      remaining.length ≤ fuel →
      ∀ x, ((peelFuel dependents keys fuel remaining deg).flatten).count x
            = remaining.count x := by
  intro fuel
  induction fuel with
  | zero =>
    intro remaining deg hlen x
    have hr : remaining = [] := List.eq_nil_of_length_eq_zero (Nat.le_zero.mp hlen)
    subst hr
    simp [peelFuel]
  | succ fuel ih =>
    intro remaining deg hlen x
    cases hemp : remaining.isEmpty with
    | true =>
      have hr : remaining = [] := List.isEmpty_iff.mp hemp
      subst hr
      simp [peelFuel]
    | false =>
      rw [peelFuel]
      simp only [hemp, Bool.false_eq_true, if_false]
      cases hz : (remaining.filter (fun n => decide (deg n = 0))).isEmpty with
      | true =>
        simp only [hz, if_true]
        have hnil : remaining.filter (fun n => decide (n ∉ remaining)) = [] := by
          rw [List.filter_eq_nil_iff]
          intro a ha
          simp [ha]
        rw [hnil]
        have hrec := ih [] (decrementAll deg keys (remaining.flatMap dependents))
          (by simp) x
        simp only [List.flatten_cons, List.count_append, hrec]
        simp
      | false =>
        simp only [Bool.false_eq_true, if_false]
        obtain ⟨y, hy⟩ := List.isEmpty_eq_false_iff_exists_mem.mp hz
        have hyr : y ∈ remaining := (List.mem_filter.mp hy).1
        have hlt : (remaining.filter
            (fun n => decide (n ∉ remaining.filter (fun m => decide (deg m = 0))))).length
            < remaining.length := by
          apply length_filter_lt_of_mem hyr
          simp [hy]
        have hrec := ih
          (remaining.filter
            (fun n => decide (n ∉ remaining.filter (fun m => decide (deg m = 0)))))
          (decrementAll deg keys
            ((remaining.filter (fun m => decide (deg m = 0))).flatMap dependents))
          (by omega) x
        simp only [List.flatten_cons, List.count_append, hrec]
        by_cases hx : x ∈ remaining
        · by_cases hpx : deg x = 0
          · have hxcur : x ∈ remaining.filter (fun m => decide (deg m = 0)) :=
              List.mem_filter.mpr ⟨hx, by simp [hpx]⟩
            have h1 : (remaining.filter (fun m => decide (deg m = 0))).count x
                = remaining.count x := List.count_filter (by simp [hpx])
            have h2 : (remaining.filter
                (fun n => decide (n ∉ remaining.filter (fun m => decide (deg m = 0))))).count x
                = 0 := by
              rw [List.count_eq_zero]
              intro hcon
              have := (List.mem_filter.mp hcon).2
              simp [hxcur] at this
            omega
          · have hxcur : x ∉ remaining.filter (fun m => decide (deg m = 0)) := by
              intro hcon
              exact hpx (by simpa using (List.mem_filter.mp hcon).2)
            have h1 : (remaining.filter (fun m => decide (deg m = 0))).count x = 0 := by
              rw [List.count_eq_zero]
              exact hxcur
            have h2 : (remaining.filter
                (fun n => decide (n ∉ remaining.filter (fun m => decide (deg m = 0))))).count x
                = remaining.count x := List.count_filter (by simp [hxcur])
            omega
        · have h0 : remaining.count x = 0 := List.count_eq_zero.mpr hx
          have h1 : (remaining.filter (fun m => decide (deg m = 0))).count x = 0 := by
            rw [List.count_eq_zero]
            intro hcon
            exact hx (List.mem_filter.mp hcon).1
          have h2 : (remaining.filter
              (fun n => decide (n ∉ remaining.filter (fun m => decide (deg m = 0))))).count x
              = 0 := by
            rw [List.count_eq_zero]
            intro hcon
            exact hx (List.mem_filter.mp hcon).1
          omega

/-- modifyNode rewrites values in place and never changes the key list. -/
theorem nodeKeys_modifyNode (g : DependencyGraph) (id : String)
    (f : FeatureNode → FeatureNode) : nodeKeys (modifyNode g id f) = nodeKeys g := by
  simp only [nodeKeys, modifyNode, List.map_map]
  apply List.map_congr_left
  intro p _
  by_cases h : p.1 = id <;> simp [h]

/-- add_edge never changes the key list. -/
theorem nodeKeys_add_edge (g : DependencyGraph) (a b : String) :
    nodeKeys (add_edge g a b) = nodeKeys g := by
  rw [add_edge]
  split
  · rfl
  · dsimp only
    split
    · split
      · rw [nodeKeys_modifyNode, nodeKeys_modifyNode]
        rfl
      · rw [nodeKeys_modifyNode]
        rfl
    · split
      · rw [nodeKeys_modifyNode]
        rfl
      · rfl

/-- Registering a list of edges never changes the key list. -/
theorem nodeKeys_foldl_add_edge (fid : String) :
    ∀ (deps : List String) (g : DependencyGraph),
      nodeKeys (deps.foldl (fun acc dep => add_edge acc dep fid) g) = nodeKeys g
  | [], _ => rfl
  | d :: ds, g => by
    rw [List.foldl_cons, nodeKeys_foldl_add_edge fid ds, nodeKeys_add_edge]

/-- The dict membership test agrees with key-list membership. -/
theorem hasKey_iff_mem (g : DependencyGraph) (id : String) :
    hasKey g id = true ↔ id ∈ nodeKeys g := by
  simp [hasKey, nodeKeys, List.any_eq_true, List.mem_map]

/-- setNode keeps the keys when the key exists and appends it otherwise. -/
theorem nodeKeys_setNode (g : DependencyGraph) (id : String) (n : FeatureNode) :
    nodeKeys (setNode g id n) =
      if hasKey g id then nodeKeys g else nodeKeys g ++ [id] := by
  rw [setNode]
  split
  · simp only [nodeKeys, List.map_map]
    apply List.map_congr_left
    intro p _
    by_cases hp : p.1 = id <;> simp [hp]
  · simp [nodeKeys]

/-- The key list after add_feature: unchanged for an existing id, the new
id appended for a fresh one. -/
theorem nodeKeys_add_feature (g : DependencyGraph) (f : Feature) :
    nodeKeys (add_feature g f) =
      if hasKey g (f.id.getD ("feat-" ++ toString (g.nodes.length + 1))) then nodeKeys g
      else nodeKeys g ++ [f.id.getD ("feat-" ++ toString (g.nodes.length + 1))] := by
  rw [add_feature]
  rw [nodeKeys_foldl_add_edge, nodeKeys_setNode]

/-- Building from any starting graph with distinct keys keeps keys distinct:
dict assignment replaces duplicates instead of duplicating keys. -/
theorem foldl_add_feature_keys_nodup :
    ∀ (features : List Feature) (g : DependencyGraph), (nodeKeys g).Nodup →
      (nodeKeys (features.foldl add_feature g)).Nodup
  | [], _, hg => hg
  | f :: fs, g, hg => by
    rw [List.foldl_cons]
    apply foldl_add_feature_keys_nodup fs
    rw [nodeKeys_add_feature]
    split
    · exact hg
    · rename_i h
      have hnotin : f.id.getD ("feat-" ++ toString (g.nodes.length + 1)) ∉ nodeKeys g := by
        intro hc
        exact h ((hasKey_iff_mem g _).mpr hc)
      simp [List.nodup_append, hg, hnotin]

/-- The graph built from a feature list has pairwise-distinct node keys. -/
theorem build_keys_nodup (features : List Feature) :
    (nodeKeys (build_graph_from_feature_list_data features)).Nodup :=
  foldl_add_feature_keys_nodup features initialGraph (by simp [nodeKeys, initialGraph])

/-- C6: on every cyclic input the level computation still terminates (it is
a total function) and emits every node exactly once: ids that are node keys
appear exactly once across all levels, ids that are not keys never appear,
and whenever no remaining id has in-degree zero the whole remainder is
emitted as one final level and the loop stops. -/
theorem cyclic_input_emits_every_node_once_with_final_fallback :
    ∀ (features : List Feature),
      HasCycle (build_graph_from_feature_list_data features) →
      ((∀ id ∈ nodeKeys (build_graph_from_feature_list_data features),
          ((topological_sort (build_graph_from_feature_list_data features)).flatten).count id
            = 1) ∧
       (∀ id, id ∉ nodeKeys (build_graph_from_feature_list_data features) →
          ((topological_sort (build_graph_from_feature_list_data features)).flatten).count id
            = 0) ∧
       (∀ (dependents : String → List String) (keys : List String) (fuel : Nat)
          (remaining : List String) (deg : String → Int),
          remaining ≠ [] → remaining.filter (fun n => decide (deg n = 0)) = [] →
          peelFuel dependents keys (fuel + 1) remaining deg = [remaining])) := by
  intro features _hcyc
  refine ⟨?_, ?_, ?_⟩
  · intro id hid
    rw [topological_sort, peelFuel_count _ _ _ _ _ (le_refl _)]
    exact List.count_eq_one_of_mem (build_keys_nodup features) hid
  · intro id hid
    rw [topological_sort, peelFuel_count _ _ _ _ _ (le_refl _)]
    exact List.count_eq_zero.mpr hid
  · intro dependents keys fuel remaining deg hne hz
    rw [peelFuel]
    have hemp : remaining.isEmpty = false := List.isEmpty_eq_false.mpr hne
    simp only [hemp, Bool.false_eq_true, if_false, hz, List.isEmpty_nil, if_true]
    have hnil : remaining.filter (fun n => decide (n ∉ remaining)) = [] := by
      rw [List.filter_eq_nil_iff]
      intro a ha
      simp [ha]
    rw [hnil]
    cases fuel <;> simp [peelFuel]

/-- Witness for C6 at the concrete two-feature cycle a → b → a: the cycle
hypothesis is discharged with the explicit cycle list, and node a is counted
exactly once across the emitted levels. -/
theorem cyclic_input_emits_witness :
    ((topological_sort (build_graph_from_feature_list_data c6Features)).flatten).count "a"
      = 1 := by
  have h := cyclic_input_emits_every_node_once_with_final_fallback c6Features
    ⟨["a", "b"], by decide⟩
  exact h.1 "a" (by decide)

/-- Mapping two updates that agree up to the passes flag over two node lists
that agree up to the passes flag yields lists that agree up to it. -/
theorem mapStrip_congr (F1 F2 : (String × FeatureNode) → (String × FeatureNode))
    (hF : ∀ p q, nodeStrip p = nodeStrip q → nodeStrip (F1 p) = nodeStrip (F2 q)) :
    ∀ (l1 l2 : List (String × FeatureNode)), l1.map nodeStrip = l2.map nodeStrip →
      (l1.map F1).map nodeStrip = (l2.map F2).map nodeStrip
  | [], [], _ => rfl
  | [], _ :: _, h => by simp at h
  | _ :: _, [], h => by simp at h
  | p :: t1, q :: t2, h => by
    simp only [List.map_cons, List.cons.injEq] at h ⊢
    exact ⟨hF p q h.1, mapStrip_congr F1 F2 hF t1 t2 h.2⟩

/-- The key list only depends on the stripped nodes. -/
theorem nodeKeys_eq_strip (g : DependencyGraph) :
    nodeKeys g = (g.nodes.map nodeStrip).map (fun p => p.1) := by
  simp only [nodeKeys, List.map_map]
  rfl

/-- Graphs equal after stripping have the same keys. -/
theorem keys_congr {g1 g2 : DependencyGraph} (h : stripG g1 = stripG g2) :
    nodeKeys g1 = nodeKeys g2 := by
  have hN : g1.nodes.map nodeStrip = g2.nodes.map nodeStrip :=
    congrArg DependencyGraph.nodes h
  rw [nodeKeys_eq_strip, nodeKeys_eq_strip, hN]

/-- Graphs equal after stripping agree on key membership. -/
theorem hasKey_congr {g1 g2 : DependencyGraph} (h : stripG g1 = stripG g2) (id : String) :
    hasKey g1 id = hasKey g2 id := by
  have hk := keys_congr h
  cases h1 : hasKey g1 id with
  | true =>
    have := (hasKey_iff_mem g1 id).mp h1
    rw [hk] at this
    exact ((hasKey_iff_mem g2 id).mpr this).symm
  | false =>
    cases h2 : hasKey g2 id with
    | true =>
      have := (hasKey_iff_mem g2 id).mp h2
      rw [← hk] at this
      rw [(hasKey_iff_mem g1 id).mpr this] at h1
      exact absurd h1 (by simp)
    | false => rfl

/-- find? by key commutes with stripping the nodes. -/
theorem find?_strip : ∀ (l : List (String × FeatureNode)) (id : String),
    (l.map nodeStrip).find? (fun p => p.1 = id)
      = (l.find? (fun p => p.1 = id)).map nodeStrip
  | [], _ => rfl
  | p :: t, id => by
    simp only [List.map_cons, List.find?_cons]
    have hc : (decide ((nodeStrip p).1 = id)) = decide (p.1 = id) := rfl
    rw [hc]
    by_cases h : p.1 = id
    · simp [h]
    · rw [decide_eq_false h]
      exact find?_strip t id

/-- Graphs equal after stripping have the same dependents tables. -/
theorem dependentsOf_congr {g1 g2 : DependencyGraph} (h : stripG g1 = stripG g2) :
    dependentsOf g1 = dependentsOf g2 := by
  funext id
  have hN : g1.nodes.map nodeStrip = g2.nodes.map nodeStrip :=
    congrArg DependencyGraph.nodes h
  have h1 := find?_strip g1.nodes id
  rw [hN] at h1
  have hfind : (g1.nodes.find? (fun p => p.1 = id)).map nodeStrip
      = (g2.nodes.find? (fun p => p.1 = id)).map nodeStrip :=
    h1.symm.trans (find?_strip g2.nodes id)
  rcases hf1 : g1.nodes.find? (fun p => p.1 = id) with _ | p <;>
    rcases hf2 : g2.nodes.find? (fun p => p.1 = id) with _ | q <;>
    rw [hf1, hf2] at hfind
  · simp [dependentsOf, lookupNode, hf1, hf2]
  · simp at hfind
  · simp at hfind
  · have hpq : nodeStrip p = nodeStrip q := by simpa using hfind
    have hd : p.2.dependents = q.2.dependents :=
      congrArg (fun x => x.2.dependents) hpq
    simp [dependentsOf, lookupNode, hf1, hf2, hd]

/-- Stripping commutes with hasKey: key membership ignores node values. -/
theorem hasKey_stripG (g : DependencyGraph) (id : String) :
    hasKey (stripG g) id = hasKey g id := by
  simp only [hasKey, stripG, List.any_map]
  rfl

/-- Stripping commutes with modifyNode whenever the mutation itself commutes
with stripping the node value. -/
theorem modifyNode_stripG (g : DependencyGraph) (id : String)
    (f : FeatureNode → FeatureNode)
    (hf : ∀ n : FeatureNode,
      ({ f n with passes := false } : FeatureNode) = f { n with passes := false }) :
    stripG (modifyNode g id f) = modifyNode (stripG g) id f := by
  simp only [stripG, modifyNode, List.map_map]
  congr 1
  apply List.map_congr_left
  intro p _
  by_cases hp : p.1 = id
  · simp only [Function.comp_apply, hp, if_pos, nodeStrip]
    exact congrArg (fun x => (id, x)) (hf p.2)
  · simp only [Function.comp_apply, hp, nodeStrip]
    simp

/-- Stripping commutes with setNode. -/
theorem setNode_stripG (g : DependencyGraph) (id : String) (n : FeatureNode) :
    stripG (setNode g id n) = setNode (stripG g) id { n with passes := false } := by
  rw [setNode, setNode, hasKey_stripG]
  by_cases hk : hasKey g id = true
  · rw [if_pos hk, if_pos hk]
    simp only [stripG, List.map_map]
    congr 1
    apply List.map_congr_left
    intro p _
    by_cases hp : p.1 = id
    · simp only [Function.comp_apply, hp, nodeStrip]
      simp
    · simp only [Function.comp_apply, nodeStrip]
      simp [hp]
  · rw [if_neg hk, if_neg hk]
    simp [stripG, nodeStrip]

/-- Stripping commutes with add_edge. -/
theorem add_edge_stripG (g : DependencyGraph) (a b : String) :
    stripG (add_edge g a b) = add_edge (stripG g) a b := by
  rw [add_edge, add_edge]
  by_cases hmem : (a, b) ∈ g.edges
  · have hmem' : (a, b) ∈ (stripG g).edges := hmem
    rw [if_pos hmem, if_pos hmem']
  · have hmem' : (a, b) ∉ (stripG g).edges := hmem
    rw [if_neg hmem, if_neg hmem']
    dsimp only
    have hsg : ({ stripG g with edges := (stripG g).edges ++ [(a, b)] } : DependencyGraph)
        = stripG { g with edges := g.edges ++ [(a, b)] } := rfl
    rw [hsg]
    have hf1 : ∀ n : FeatureNode,
        ({ { n with dependents := n.dependents ++ [b] } with passes := false } : FeatureNode)
          = { ({ n with passes := false } : FeatureNode) with
              dependents := ({ n with passes := false } : FeatureNode).dependents ++ [b] } :=
      fun _ => rfl
    have hf2 : ∀ n : FeatureNode,
        ({ (if a ∈ n.dependencies then n
            else { n with dependencies := n.dependencies ++ [a] }) with passes := false }
          : FeatureNode)
          = (if a ∈ ({ n with passes := false } : FeatureNode).dependencies
             then ({ n with passes := false } : FeatureNode)
             else { ({ n with passes := false } : FeatureNode) with
                    dependencies := ({ n with passes := false }
                      : FeatureNode).dependencies ++ [a] }) := by
      intro n
      by_cases hin : a ∈ n.dependencies
      · rw [if_pos hin, if_pos (show a ∈ ({ n with passes := false }
          : FeatureNode).dependencies from hin)]
      · rw [if_neg hin, if_neg (show a ∉ ({ n with passes := false }
          : FeatureNode).dependencies from hin)]
    set g' : DependencyGraph := { g with edges := g.edges ++ [(a, b)] } with hg'
    have hG2 : stripG (if hasKey g' a then
          modifyNode g' a (fun n => { n with dependents := n.dependents ++ [b] }) else g')
        = (if hasKey (stripG g') a then
            modifyNode (stripG g') a (fun n => { n with dependents := n.dependents ++ [b] })
          else stripG g') := by
      rw [hasKey_stripG]
      by_cases hk1 : hasKey g' a = true
      · rw [if_pos hk1, if_pos hk1]
        exact modifyNode_stripG g' a _ (fun n => hf1 n)
      · rw [if_neg hk1, if_neg hk1]
    rw [← hG2, hasKey_stripG]
    by_cases hk2 : hasKey (if hasKey g' a then
        modifyNode g' a (fun n => { n with dependents := n.dependents ++ [b] }) else g') b
        = true
    · rw [if_pos hk2, if_pos hk2]
      exact modifyNode_stripG _ b _ (fun n => hf2 n)
    · rw [if_neg hk2, if_neg hk2]

/-- Stripping commutes with add_feature, with the feature stripped too. -/
theorem add_feature_stripG (g : DependencyGraph) (f : Feature) :
    stripG (add_feature g f) = add_feature (stripG g) (featStrip f) := by
  rw [add_feature, add_feature]
  dsimp only [featStrip]
  have hlen : (stripG g).nodes.length = g.nodes.length := by
    simp [stripG]
  rw [hlen]
  have hfold : ∀ (deps : List String) (fid : String) (h : DependencyGraph),
      stripG (deps.foldl (fun acc dep => add_edge acc dep fid) h)
        = deps.foldl (fun acc dep => add_edge acc dep fid) (stripG h) := by
    intro deps fid
    induction deps with
    | nil => intro h; rfl
    | cons d ds ih =>
      intro h
      rw [List.foldl_cons, List.foldl_cons, ih, add_edge_stripG]
  rw [hfold, setNode_stripG]

/-- Stripping commutes with building the whole graph. -/
theorem foldl_add_feature_stripG :
    ∀ (fs : List Feature) (g : DependencyGraph),
      stripG (fs.foldl add_feature g) = (fs.map featStrip).foldl add_feature (stripG g)
  | [], _ => rfl
  | f :: t, g => by
    rw [List.map_cons, List.foldl_cons, List.foldl_cons,
        foldl_add_feature_stripG t, add_feature_stripG]

/-- Marking a feature done changes nothing that survives stripping. -/
theorem enumFrom_mark_map_featStrip (i : Nat) :
    ∀ (fs : List Feature) (n : Nat),
      ((List.enumFrom n fs).map
          (fun p => if p.1 = i then { p.2 with passes := true } else p.2)).map featStrip
        = fs.map featStrip
  | [], _ => rfl
  | f :: t, n => by
    rw [show List.enumFrom n (f :: t) = (n, f) :: List.enumFrom (n + 1) t from rfl]
    simp only [List.map_cons]
    congr 1
    · by_cases h : n = i <;> simp [h, featStrip]
    · exact enumFrom_mark_map_featStrip i t (n + 1)

/-- markPassedAt is invisible after stripping. -/
theorem markPassedAt_map_featStrip (fs : List Feature) (i : Nat) :
    (markPassedAt fs i).map featStrip = fs.map featStrip := by
  rw [markPassedAt, List.enum]
  exact enumFrom_mark_map_featStrip i fs 0

/-- The key list ignores stripping. -/
theorem nodeKeys_stripG (g : DependencyGraph) : nodeKeys (stripG g) = nodeKeys g := by
  simp only [nodeKeys, stripG, List.map_map]
  rfl

/-- The dependents table ignores stripping. -/
theorem dependentsOf_stripG (g : DependencyGraph) :
    dependentsOf (stripG g) = dependentsOf g := by
  funext id
  have h1 := find?_strip g.nodes id
  rcases hf : g.nodes.find? (fun p => p.1 = id) with _ | p <;> rw [hf] at h1
  · simp only [dependentsOf, lookupNode, stripG]
    rw [h1, hf]
    rfl
  · simp only [dependentsOf, lookupNode, stripG]
    rw [h1, hf]
    rfl

/-- The in-degree table ignores stripping. -/
theorem initInDegree_stripG (g : DependencyGraph) :
    initInDegree (stripG g) = initInDegree g := rfl

/-- topological_sort only reads strip-invariant graph components. -/
theorem topological_sort_stripG (g : DependencyGraph) :
    topological_sort (stripG g) = topological_sort g := by
  rw [topological_sort, topological_sort, nodeKeys_stripG, dependentsOf_stripG,
    initInDegree_stripG]

/-- get_chain_length only reads the dependents table. -/
theorem get_chain_length_stripG (g : DependencyGraph) :
    ∀ (fuel : Nat) (id : String) (visited : List String),
      get_chain_length (stripG g) fuel id visited = get_chain_length g fuel id visited := by
  intro fuel
  induction fuel with
  | zero => intro id visited; rfl
  | succ fuel ih =>
    intro id visited
    simp only [get_chain_length, dependentsOf_stripG, ih]

/-- The critical path ignores stripping. -/
theorem calculate_critical_path_stripG (g : DependencyGraph) :
    calculate_critical_path (stripG g) = calculate_critical_path g := by
  rw [calculate_critical_path, calculate_critical_path]
  have hroots : ((stripG g).nodes.filter (fun p => p.2.dependencies.isEmpty)).map (·.1)
      = (g.nodes.filter (fun p => p.2.dependencies.isEmpty)).map (·.1) := by
    simp only [stripG, List.filter_map, List.map_map]
    rfl
  have hlen : (stripG g).nodes.length = g.nodes.length := by simp [stripG]
  simp only [hroots, hlen, get_chain_length_stripG]

/-- The whole plan ignores stripping. -/
theorem create_execution_plan_stripG (g : DependencyGraph) (w : Nat) :
    create_execution_plan (stripG g) w = create_execution_plan g w := by
  rw [create_execution_plan, create_execution_plan, topological_sort_stripG,
    calculate_critical_path_stripG]
  have hlen : (stripG g).nodes.length = g.nodes.length := by simp [stripG]
  rw [hlen]

/-- C4 (counterexample): with the single feature f1, marking it passes=true
and rebuilding the graph and plan leaves it in the plan: the new plan still
has the level [[f1]], so the feature is NOT removed from all levels. -/
theorem passes_true_feature_remains_in_plan :
    (markPassedAt [mkFeat "f1" []] 0).map (fun f => f.passes) = [true] ∧
    topological_sort (build_graph_from_feature_list_data (markPassedAt [mkFeat "f1" []] 0))
      = [["f1"]] ∧
    "f1" ∈ (topological_sort
      (build_graph_from_feature_list_data (markPassedAt [mkFeat "f1" []] 0))).flatten := by
  exact ⟨rfl, rfl, by decide⟩

/-- C4 (amended): setting one feature's passes flag to true and rebuilding
the graph and plan yields a plan IDENTICAL to the original: the planner
never reads the passes flag, so the feature is not removed from any level,
and in particular the relative order of all remaining features across
levels is preserved. -/
theorem replan_after_mark_passes_yields_identical_plan
    (fs : List Feature) (i : Nat) (w : Nat) :
    create_execution_plan (build_graph_from_feature_list_data (markPassedAt fs i)) w
      = create_execution_plan (build_graph_from_feature_list_data fs) w := by
  have h1 : stripG (build_graph_from_feature_list_data (markPassedAt fs i))
      = stripG (build_graph_from_feature_list_data fs) := by
    rw [build_graph_from_feature_list_data, build_graph_from_feature_list_data,
      foldl_add_feature_stripG, foldl_add_feature_stripG, markPassedAt_map_featStrip]
  calc create_execution_plan (build_graph_from_feature_list_data (markPassedAt fs i)) w
      = create_execution_plan
          (stripG (build_graph_from_feature_list_data (markPassedAt fs i))) w :=
        (create_execution_plan_stripG _ _).symm
    _ = create_execution_plan (stripG (build_graph_from_feature_list_data fs)) w := by
        rw [h1]
    _ = create_execution_plan (build_graph_from_feature_list_data fs) w :=
        create_execution_plan_stripG _ _

/-- C9 part: the run loop halts with the stall signal at or before the third
of three consecutive failures, and a successful session resets the
consecutive-failure counter to zero for the continuation. -/
theorem stall_detection_halts_and_success_resets :
    (∀ (outcome : Nat → Bool) (fuel i consec : Nat) (features : List Feature)
        (p : Nat × Feature),
        3 ≤ fuel →
        autonomous_get_next_index features = some p →
        outcome i = false → outcome (i + 1) = false → outcome (i + 2) = false →
        (runLoop outcome fuel i features consec).reason = "stall_detected" ∧
        (runLoop outcome fuel i features consec).session_count ≤ i + 3) ∧
    (∀ (outcome : Nat → Bool) (fuel i consec : Nat) (features : List Feature)
        (p : Nat × Feature),
        autonomous_get_next_index features = some p →
        outcome i = true →
        runLoop outcome (fuel + 1) i features consec
          = runLoop outcome fuel (i + 1) (markPassedAt features p.1) 0) := by
  constructor
  · intro outcome fuel i consec features p hfuel hnext h0 h1 h2
    obtain ⟨k, rfl⟩ : ∃ k, fuel = k + 3 := ⟨fuel - 3, by omega⟩
    rw [show k + 3 = (k + 2) + 1 from rfl, runLoop]
    rw [hnext]
    simp only [h0, Bool.false_eq_true, if_false]
    by_cases hc1 : consec + 1 ≥ 3
    · rw [if_pos hc1]
      refine ⟨rfl, ?_⟩
      show i + 1 ≤ i + 3
      omega
    · rw [if_neg hc1]
      rw [show k + 2 = (k + 1) + 1 from rfl, runLoop]
      rw [hnext]
      simp only [h1, Bool.false_eq_true, if_false]
      by_cases hc2 : consec + 1 + 1 ≥ 3
      · rw [if_pos hc2]
        refine ⟨rfl, ?_⟩
        show i + 1 + 1 ≤ i + 3
        omega
      · rw [if_neg hc2]
        rw [runLoop]
        rw [hnext]
        simp only [h2, Bool.false_eq_true, if_false]
        rw [if_pos (by omega : consec + 1 + 1 + 1 ≥ 3)]
        refine ⟨rfl, ?_⟩
        show i + 1 + 1 + 1 ≤ i + 3
        omega
  · intro outcome fuel i consec features p hnext hout
    rw [runLoop, hnext]
    simp only [hout, if_true]

/-- Witness for C9: with a pending feature and every session failing from a
fresh counter, the run signals stall_detected within three sessions instead
of consuming the remaining budget. -/
theorem stall_detection_witness :
    (runLoop (fun _ => false) 10 0 [mkFeat "x" []] 0).reason = "stall_detected" ∧
    (runLoop (fun _ => false) 10 0 [mkFeat "x" []] 0).session_count ≤ 3 := by
  have h := stall_detection_halts_and_success_resets
  exact h.1 (fun _ => false) 10 0 0 [mkFeat "x" []] (0, mkFeat "x" []) (by omega)
    (by rfl) rfl rfl rfl

/-- Membership for stable insertion. -/
theorem mem_insertSorted (le : α → α → Bool) (x : α) :
    ∀ (l : List α) (y : α), y ∈ insertSorted le x l ↔ y = x ∨ y ∈ l
  | [], y => by simp [insertSorted]
  | z :: zs, y => by
    simp only [insertSorted]
    by_cases h : le x z
    · simp only [h, if_true, List.mem_cons]
    · simp only [h, Bool.false_eq_true, if_false, List.mem_cons,
        mem_insertSorted le x zs y]
      tauto

/-- Stable insertion preserves sortedness for a total transitive comparator. -/
theorem pairwise_insertSorted (le : α → α → Bool)
    (total : ∀ a b, le a b = true ∨ le b a = true)
    (htrans : ∀ a b c, le a b = true → le b c = true → le a c = true) (x : α) :
    ∀ (l : List α), l.Pairwise (fun a b => le a b = true) →
      (insertSorted le x l).Pairwise (fun a b => le a b = true)
  | [], _ => by simp [insertSorted]
  | z :: zs, h => by
    rcases List.pairwise_cons.mp h with ⟨hz, hzs⟩
    simp only [insertSorted]
    by_cases hxz : le x z
    · simp only [hxz, if_true]
      apply List.pairwise_cons.mpr
      refine ⟨?_, h⟩
      intro y hy
      rcases List.mem_cons.mp hy with rfl | hy
      · exact hxz
      · exact htrans x z y hxz (hz y hy)
    · simp only [hxz, Bool.false_eq_true, if_false]
      apply List.pairwise_cons.mpr
      refine ⟨?_, pairwise_insertSorted le total htrans x zs hzs⟩
      intro y hy
      rcases (mem_insertSorted le x zs y).mp hy with hxy | hy
      · subst hxy
        rcases total y z with hc | hc
        · exact absurd hc hxz
        · exact hc
      · exact hz y hy

/-- The stable sort is sorted for a total transitive comparator. -/
theorem pairwise_sortBy (le : α → α → Bool)
    (total : ∀ a b, le a b = true ∨ le b a = true)
    (htrans : ∀ a b c, le a b = true → le b c = true → le a c = true) :
    ∀ (l : List α), (sortBy le l).Pairwise (fun a b => le a b = true)
  | [] => by simp [sortBy]
  | x :: xs => by
    rw [sortBy, List.foldr_cons]
    exact pairwise_insertSorted le total htrans x _
      (pairwise_sortBy le total htrans xs)

/-- The stable sort is a permutation in the membership sense. -/
theorem mem_sortBy (le : α → α → Bool) :
    ∀ (l : List α) (y : α), y ∈ sortBy le l ↔ y ∈ l
  | [], y => by simp [sortBy]
  | x :: xs, y => by
    rw [sortBy, List.foldr_cons]
    rw [mem_insertSorted le x (List.foldr (insertSorted le) [] xs) y]
    rw [show List.foldr (insertSorted le) [] xs = sortBy le xs from rfl]
    simp only [mem_sortBy le xs y, List.mem_cons]

/-- Sorting an already sorted list is the identity (stability on ties). -/
theorem sortBy_of_pairwise (le : α → α → Bool) :
    ∀ (l : List α), l.Pairwise (fun a b => le a b = true) → sortBy le l = l
  | [], _ => rfl
  | x :: xs, h => by
    rcases List.pairwise_cons.mp h with ⟨hx, hxs⟩
    rw [sortBy, List.foldr_cons,
      show List.foldr (insertSorted le) [] xs = sortBy le xs from rfl,
      sortBy_of_pairwise le xs hxs]
    cases xs with
    | nil => rfl
    | cons z zs =>
      simp only [insertSorted, hx z (by simp), if_true]

/-- Whatever the head of the sorted list is, it compares at or before every
member of the original list. -/
theorem head_sortBy_le (le : α → α → Bool)
    (total : ∀ a b, le a b = true ∨ le b a = true)
    (htrans : ∀ a b c, le a b = true → le b c = true → le a c = true)
    (l : List α) (f : α) (hf : (sortBy le l).head? = some f) :
    f ∈ l ∧ ∀ y ∈ l, y = f ∨ le f y = true := by
  have hp := pairwise_sortBy le total htrans l
  cases hs : sortBy le l with
  | nil => rw [hs] at hf; simp at hf
  | cons a t =>
    rw [hs] at hf hp
    have haf : a = f := by simpa using hf
    subst haf
    rcases List.pairwise_cons.mp hp with ⟨ha, _⟩
    constructor
    · exact (mem_sortBy le l a).mp (hs ▸ List.mem_cons_self a t)
    · intro y hy
      have hmem : y ∈ sortBy le l := (mem_sortBy le l y).mpr hy
      rw [hs] at hmem
      rcases List.mem_cons.mp hmem with rfl | hmem
      · exact Or.inl rfl
      · exact Or.inr (ha y hmem)

/-- The pending_with_index entries project back to the pending features. -/
theorem enumFrom_filter_map_snd :
    ∀ (fs : List Feature) (n : Nat),
      (((List.enumFrom n fs).filter (fun p => !p.2.passes)).map (fun p => p.2))
        = fs.filter (fun f => !f.passes)
  | [], _ => rfl
  | f :: t, n => by
    simp only [List.enumFrom_cons, List.filter_cons]
    by_cases h : f.passes
    · simp only [h, Bool.not_true, Bool.false_eq_true, if_false]
      exact enumFrom_filter_map_snd t (n + 1)
    · have h' : f.passes = false := by simpa using h
      simp only [h', Bool.not_false, if_true, List.map_cons]
      rw [enumFrom_filter_map_snd t (n + 1)]

/-- Every index in an enumeration from m is at least m. -/
theorem le_fst_of_mem_enumFrom :
    ∀ (t : List Feature) (m : Nat) (q : Nat × Feature),
      q ∈ List.enumFrom m t → m ≤ q.1
  | [], _, _, h => by simp at h
  | f :: t, m, q, h => by
    simp only [List.enumFrom_cons, List.mem_cons] at h
    rcases h with rfl | h
    · exact le_refl m
    · exact Nat.le_of_succ_le (le_fst_of_mem_enumFrom t (m + 1) q h)

/-- Enumeration indices are strictly increasing. -/
theorem pairwise_fst_lt_enumFrom :
    ∀ (fs : List Feature) (n : Nat),
      (List.enumFrom n fs).Pairwise (fun a b => a.1 < b.1)
  | [], _ => by simp
  | f :: t, n => by
    simp only [List.enumFrom_cons]
    apply List.pairwise_cons.mpr
    refine ⟨?_, pairwise_fst_lt_enumFrom t (n + 1)⟩
    intro q hq
    exact Nat.lt_of_succ_le (le_fst_of_mem_enumFrom t (n + 1) q hq)

/-- The (-priority, index) comparison is total. -/
theorem autoLE_total (a b : Nat × Feature) : autoLE a b = true ∨ autoLE b a = true := by
  simp only [autoLE, Bool.or_eq_true, Bool.and_eq_true, decide_eq_true_eq]
  omega

/-- The (-priority, index) comparison is transitive. -/
theorem autoLE_trans (a b c : Nat × Feature) (hab : autoLE a b = true)
    (hbc : autoLE b c = true) : autoLE a c = true := by
  simp only [autoLE, Bool.or_eq_true, Bool.and_eq_true, decide_eq_true_eq] at hab hbc ⊢
  omega

/-- The comparison orders by descending priority. -/
theorem autoLE_le (a b : Nat × Feature) (h : autoLE a b = true) :
    prioKey b.2 ≤ prioKey a.2 := by
  simp only [autoLE, Bool.or_eq_true, Bool.and_eq_true, decide_eq_true_eq] at h
  omega

/-- Pending membership unfolds to membership plus a false passes flag. -/
theorem mem_pendingOf (features : List Feature) (g : Feature) :
    g ∈ pendingOf features ↔ g ∈ features ∧ g.passes = false := by
  simp [pendingOf, List.mem_filter]

/-- The pending list is empty exactly when every feature passes. -/
theorem pendingOf_nil_iff (features : List Feature) :
    pendingOf features = [] ↔ ∀ f ∈ features, f.passes = true := by
  simp [pendingOf, List.filter_eq_nil_iff]

/-- HybridLoopAgent.get_next_feature returns None exactly when every
feature passes. -/
theorem hybrid_none_iff (features : List Feature) :
    hybrid_get_next_feature features = none ↔ ∀ f ∈ features, f.passes = true := by
  rw [hybrid_get_next_feature]
  cases hp : pendingOf features with
  | nil =>
    simp only [hp, List.isEmpty_nil, if_true]
    exact iff_of_true trivial ((pendingOf_nil_iff features).mp hp)
  | cons p t =>
    simp only [hp, List.isEmpty_cons, Bool.false_eq_true, if_false]
    have hpmem : p ∈ pendingOf features := hp ▸ List.mem_cons_self p t
    have hpp := (mem_pendingOf features p).mp hpmem
    constructor
    · intro h
      exfalso
      have hmem : p ∈ (if (p :: t).any (fun g => g.priority.isSome) then
          sortBy (fun a b => decide (prioKey b ≤ prioKey a)) (p :: t) else p :: t) := by
        split
        · exact (mem_sortBy _ (p :: t) p).mpr (List.mem_cons_self p t)
        · exact List.mem_cons_self p t
      rw [List.head?_eq_none_iff.mp h] at hmem
      simp at hmem
    · intro h
      rw [h p hpp.1] at hpp
      exact absurd hpp.2 (by simp)

/-- AutonomousAgent.get_next_feature returns None exactly when every
feature passes. -/
theorem autonomous_none_iff (features : List Feature) :
    autonomous_get_next_feature features = none ↔ ∀ f ∈ features, f.passes = true := by
  rw [autonomous_get_next_feature]
  cases hp : pendingOf features with
  | nil =>
    simp only [hp, List.isEmpty_nil, if_true]
    exact iff_of_true trivial ((pendingOf_nil_iff features).mp hp)
  | cons p t =>
    simp only [hp, List.isEmpty_cons, Bool.false_eq_true, if_false]
    have hpmem : p ∈ pendingOf features := hp ▸ List.mem_cons_self p t
    have hpp := (mem_pendingOf features p).mp hpmem
    constructor
    · intro h
      exfalso
      rw [Option.map_eq_none'] at h
      have hE1 : ((features.enum.filter (fun q => !q.2.passes)).map (fun q => q.2))
          = pendingOf features := by
        rw [List.enum_eq_enumFrom]
        exact enumFrom_filter_map_snd features 0
      rw [autonomous_get_next_index] at h
      have hne : features.enum.filter (fun q => !q.2.passes) ≠ [] := by
        intro hcon
        rw [hcon] at hE1
        rw [hp] at hE1
        simp at hE1
      obtain ⟨q, hq⟩ := List.exists_mem_of_ne_nil _ hne
      have hqs : q ∈ sortBy autoLE (features.enum.filter (fun r => !r.2.passes)) :=
        (mem_sortBy autoLE _ q).mpr hq
      rw [List.head?_eq_none_iff.mp h] at hqs
      simp at hqs
    · intro h
      rw [h p hpp.1] at hpp
      exact absurd hpp.2 (by simp)

/-- The selection contract of HybridLoopAgent.get_next_feature when
something is returned. -/
theorem hybrid_some_spec (features : List Feature) (f : Feature)
    (hf : hybrid_get_next_feature features = some f) :
    f.passes = false ∧ f ∈ features ∧
    (features.any (fun g => g.priority.isSome) = true →
      ∀ g ∈ features, g.passes = false → prioKey g ≤ prioKey f) ∧
    (features.any (fun g => g.priority.isSome) = false →
      (pendingOf features).head? = some f) := by
  rw [hybrid_get_next_feature] at hf
  cases hp : pendingOf features with
  | nil =>
    rw [hp] at hf
    simp at hf
  | cons p t =>
    rw [hp] at hf
    simp only [List.isEmpty_cons, Bool.false_eq_true, if_false] at hf
    have htotal : ∀ a b : Feature,
        (decide (prioKey b ≤ prioKey a)) = true ∨ (decide (prioKey a ≤ prioKey b)) = true := by
      intro a b
      simp only [decide_eq_true_eq]
      omega
    have htrans : ∀ a b c : Feature, (decide (prioKey b ≤ prioKey a)) = true →
        (decide (prioKey c ≤ prioKey b)) = true →
        (decide (prioKey c ≤ prioKey a)) = true := by
      intro a b c hab hbc
      simp only [decide_eq_true_eq] at hab hbc ⊢
      omega
    by_cases hany : (p :: t).any (fun g => g.priority.isSome) = true
    · rw [if_pos hany] at hf
      have hres := head_sortBy_le (fun a b => decide (prioKey b ≤ prioKey a))
        htotal htrans (p :: t) f hf
      have hfmem : f ∈ pendingOf features := hp ▸ hres.1
      have hfp := (mem_pendingOf features f).mp hfmem
      refine ⟨hfp.2, hfp.1, ?_, ?_⟩
      · intro _ g hg hgpass
        have hgmem : g ∈ p :: t :=
          hp ▸ (mem_pendingOf features g).mpr ⟨hg, hgpass⟩
        rcases hres.2 g hgmem with rfl | hle'
        · exact le_refl _
        · simpa using hle'
      · intro hnone
        exfalso
        rcases List.any_eq_true.mp hany with ⟨x, hx, hxs⟩
        have hxf : x ∈ features :=
          ((mem_pendingOf features x).mp (hp ▸ hx)).1
        have : features.any (fun g => g.priority.isSome) = true :=
          List.any_eq_true.mpr ⟨x, hxf, hxs⟩
        rw [hnone] at this
        exact absurd this (by simp)
    · rw [if_neg hany] at hf
      have hfp : p = f := by simpa using hf
      subst hfp
      have hpmem : p ∈ pendingOf features := hp ▸ List.mem_cons_self p t
      have hpp := (mem_pendingOf features p).mp hpmem
      have hnopri : ∀ x ∈ p :: t, x.priority = none := by
        intro x hx
        cases hxp : x.priority with
        | none => rfl
        | some v =>
          exfalso
          apply hany
          apply List.any_eq_true.mpr
          exact ⟨x, hx, by simp [hxp]⟩
      refine ⟨hpp.2, hpp.1, ?_, ?_⟩
      · intro _ g hg hgpass
        have hgmem : g ∈ p :: t :=
          hp ▸ (mem_pendingOf features g).mpr ⟨hg, hgpass⟩
        have h1 : prioKey g = 0 := by
          rw [prioKey, hnopri g hgmem]
          rfl
        have h2 : prioKey p = 0 := by
          rw [prioKey, hnopri p (List.mem_cons_self p t)]
          rfl
        omega
      · intro _
        rfl

/-- The selection contract of AutonomousAgent.get_next_feature when
something is returned. -/
theorem autonomous_some_spec (features : List Feature) (f : Feature)
    (hf : autonomous_get_next_feature features = some f) :
    f.passes = false ∧ f ∈ features ∧
    (features.any (fun g => g.priority.isSome) = true →
      ∀ g ∈ features, g.passes = false → prioKey g ≤ prioKey f) ∧
    (features.any (fun g => g.priority.isSome) = false →
      (pendingOf features).head? = some f) := by
  have hE1 : ((features.enum.filter (fun q => !q.2.passes)).map (fun q => q.2))
      = pendingOf features := by
    rw [List.enum_eq_enumFrom]
    exact enumFrom_filter_map_snd features 0
  rw [autonomous_get_next_feature] at hf
  cases hp : pendingOf features with
  | nil =>
    rw [hp] at hf
    simp at hf
  | cons p t =>
    rw [hp] at hf
    simp only [List.isEmpty_cons, Bool.false_eq_true, if_false] at hf
    rw [autonomous_get_next_index, Option.map_eq_some'] at hf
    obtain ⟨q, hq, hqf⟩ := hf
    have hres := head_sortBy_le autoLE autoLE_total autoLE_trans
      (features.enum.filter (fun r => !r.2.passes)) q hq
    have hfmem : f ∈ pendingOf features := by
      rw [← hE1, ← hqf]
      exact List.mem_map_of_mem (fun r => r.2) hres.1
    have hfp := (mem_pendingOf features f).mp hfmem
    refine ⟨hfp.2, hfp.1, ?_, ?_⟩
    · intro _ g hg hgpass
      have hgmem : g ∈ pendingOf features :=
        (mem_pendingOf features g).mpr ⟨hg, hgpass⟩
      rw [← hE1] at hgmem
      obtain ⟨r, hr, hrg⟩ := List.mem_map.mp hgmem
      rcases hres.2 r hr with rfl | hle'
      · rw [← hrg, hqf]
      · have hle2 := autoLE_le q r hle'
        rw [hrg, hqf] at hle2
        exact hle2
    · intro hnone
      have hnopri : ∀ r ∈ features.enum.filter (fun s => !s.2.passes),
          r.2.priority = none := by
        intro r hr
        have hrf : r.2 ∈ features := by
          have h1 : r ∈ features.enum := (List.mem_filter.mp hr).1
          have h2 : r.2 ∈ features.enum.map (fun s => s.2) :=
            List.mem_map_of_mem (fun s => s.2) h1
          rw [List.enum_eq_enumFrom] at h2
          have h3 := List.enumFrom_map_snd 0 features
          rw [show (List.map (fun s : Nat × Feature => s.2) (List.enumFrom 0 features))
            = List.map Prod.snd (List.enumFrom 0 features) from rfl, h3] at h2
          exact h2
        cases hrp : r.2.priority with
        | none => rfl
        | some v =>
          exfalso
          have hc : features.any (fun g => g.priority.isSome) = true :=
            List.any_eq_true.mpr ⟨r.2, hrf, by simp [hrp]⟩
          rw [hnone] at hc
          exact absurd hc (by simp)
      have hpair : (features.enum.filter (fun s => !s.2.passes)).Pairwise
          (fun a b => autoLE a b = true) := by
        have hlt : (features.enum.filter (fun s => !s.2.passes)).Pairwise
            (fun a b => a.1 < b.1) := by
          apply List.Pairwise.filter
          rw [List.enum_eq_enumFrom]
          exact pairwise_fst_lt_enumFrom features 0
        apply List.Pairwise.imp_of_mem ?_ hlt
        intro a b ha hb hab
        have hpa := hnopri a ha
        have hpb := hnopri b hb
        simp [autoLE, prioKey, hpa, hpb, Nat.le_of_lt hab]
      have hsorted := sortBy_of_pairwise autoLE _ hpair
      rw [hsorted] at hq
      rw [hp] at hE1
      rw [← hE1, List.head?_map, hq, Option.map_some', hqf]

/-- C10: both get_next_feature implementations return None exactly when
every feature passes; otherwise they return a pending feature which has the
maximum priority value among pending features (missing priority counted 0)
whenever any feature carries a priority field, and which is the first
pending feature in list order when none does. -/
theorem get_next_feature_selection_contract (features : List Feature) :
    (hybrid_get_next_feature features = none ↔ ∀ f ∈ features, f.passes = true) ∧
    (autonomous_get_next_feature features = none ↔ ∀ f ∈ features, f.passes = true) ∧
    (∀ f, hybrid_get_next_feature features = some f →
      f.passes = false ∧ f ∈ features ∧
      (features.any (fun g => g.priority.isSome) = true →
        ∀ g ∈ features, g.passes = false → prioKey g ≤ prioKey f) ∧
      (features.any (fun g => g.priority.isSome) = false →
        (pendingOf features).head? = some f)) ∧
    (∀ f, autonomous_get_next_feature features = some f →
      f.passes = false ∧ f ∈ features ∧
      (features.any (fun g => g.priority.isSome) = true →
        ∀ g ∈ features, g.passes = false → prioKey g ≤ prioKey f) ∧
      (features.any (fun g => g.priority.isSome) = false →
        (pendingOf features).head? = some f)) :=
  ⟨hybrid_none_iff features, autonomous_none_iff features,
    fun f hf => hybrid_some_spec features f hf,
    fun f hf => autonomous_some_spec features f hf⟩

/-- Witness for C10: on two pending features with priorities 1 and 5 the
hybrid implementation picks the priority-5 feature, which is pending and a
member of the list. -/
theorem get_next_feature_selection_witness :
    hybrid_get_next_feature [mkFeatP "a" (some 1) false, mkFeatP "b" (some 5) false]
      = some (mkFeatP "b" (some 5) false) ∧
    (mkFeatP "b" (some 5) false).passes = false ∧
    (mkFeatP "b" (some 5) false)
      ∈ [mkFeatP "a" (some 1) false, mkFeatP "b" (some 5) false] := by
  have h := get_next_feature_selection_contract
    [mkFeatP "a" (some 1) false, mkFeatP "b" (some 5) false]
  have hsome : hybrid_get_next_feature
      [mkFeatP "a" (some 1) false, mkFeatP "b" (some 5) false]
      = some (mkFeatP "b" (some 5) false) := by rfl
  have hspec := h.2.2.1 (mkFeatP "b" (some 5) false) hsome
  exact ⟨hsome, hspec.1, hspec.2.1⟩

/-- Witness for the amended C4 at a concrete list: marking f1 done and
re-planning the three-feature scenario yields the identical plan. -/
theorem replan_after_mark_witness :
    create_execution_plan (build_graph_from_feature_list_data (markPassedAt c7Features 0)) 3
      = create_execution_plan (build_graph_from_feature_list_data c7Features) 3 :=
  replan_after_mark_passes_yields_identical_plan c7Features 0 3

/-- Witness for the amended C8 at a concrete SDK oracle: even an SDK that
would succeed is never reached without credentials, and the retry wrapper
performs all three invocations before failing. -/
theorem missing_credentials_retried_witness :
    execute_session_with_retry
      (fun _ => execute_session_checked none none (SessionOutcome.ok true)) = (false, 3) :=
  missing_credentials_retried_to_bound (fun _ => SessionOutcome.ok true)
